import Mathlib

/-
Shallow embedding of the kubelet-meta-proxy metrics-enrichment pipeline:
the label cache (`NamespaceMetrics`), the enrichment pass
(`EnrichMetricFamilies` with its helpers `hasLabel`, the namespace-label
scan and the label-append loop), the HTTP handler pipeline
(`FetchAndProcessMetrics`, `Handler`), and the namespace reconciler
(`Reconcile`).  Go maps are embedded as association lists: the list order
records one iteration order of the map, which the Go runtime chooses
nondeterministically for `range` loops (lookups are order-insensitive for
the distinct-key lists that model actual maps).
-/

namespace KMProxy

/-- A (name, value) label pair, as in `dto.LabelPair` (proto getters give
`""` for unset fields, so both fields are plain strings). -/
structure LabelPair where
  name  : String
  value : String
deriving DecidableEq

/-- One metric sample: its label list plus the rendered remainder of the
sample line (numeric value / timestamp), which enrichment never touches. -/
structure Metric where
  label : List LabelPair
  value : String
deriving DecidableEq

/-- A metric family: name, help text, type, and its samples, as in
`dto.MetricFamily`. -/
structure MetricFamily where
  name   : String
  help   : String
  mtype  : String
  metric : List Metric
deriving DecidableEq

/-- `NamespaceMetrics` from metrics.go: the cache mapping namespace name to
its label set.  Both the outer map and each inner label-set map are
embedded as association lists recording one Go-map iteration order. -/
structure NamespaceMetrics where
  Namespaces : List (String × List (String × String))
deriving DecidableEq

/-- `NewNamespaceMetrics` from metrics.go: the empty cache. -/
def NewNamespaceMetrics : NamespaceMetrics :=
  ⟨[]⟩

/-- `hasLabel` from metrics.go: scan the label list for a label with the
given name. -/
def hasLabel (labels : List LabelPair) (name : String) : Bool :=
  labels.any (fun l => l.name == name)

/-- The `nsValue` scan inside `EnrichMetricFamilies`: walk the sample's
labels, take the value of the first label named `namespace` and break;
`nsValue` stays `""` when no such label exists. -/
def findNamespaceValue (labels : List LabelPair) : String :=
  match labels.find? (fun l => l.name == "namespace") with
  | some l => l.value
  | none   => ""

/-- Go map lookup `nm.Namespaces[ns]` on the association-list embedding:
the first binding for the key (the lists modelling real maps have distinct
keys). -/
def lookupNamespace (nm : NamespaceMetrics) (ns : String) : Option (List (String × String)) :=
  (nm.Namespaces.find? (fun p => p.1 == ns)).map (fun p => p.2)

/-- The `for k, v := range extraLabels` loop of `EnrichMetricFamilies`:
append each cached pair whose key is not already a label name on the
(growing) label list. -/
def appendExtraLabels (labels : List LabelPair) (extra : List (String × String)) : List LabelPair :=
  match extra with
  | [] => labels
  | (k, v) :: rest =>
    if hasLabel labels k then appendExtraLabels labels rest
    else appendExtraLabels (labels ++ [⟨k, v⟩]) rest

/-- The per-sample body of `EnrichMetricFamilies`: find `nsValue`; when it
is nonempty and is a key of the cache, append that namespace's cached
pairs, skipping keys already present. -/
def enrichMetric (nm : NamespaceMetrics) (m : Metric) : Metric :=
  let nsValue := findNamespaceValue m.label
  if nsValue ≠ "" then
    match lookupNamespace nm nsValue with
    | some extraLabels => { m with label := appendExtraLabels m.label extraLabels }
    | none => m
  else m

/-- The per-family loop of `EnrichMetricFamilies`: enrich every sample of
the family. -/
def enrichFamily (nm : NamespaceMetrics) (mf : MetricFamily) : MetricFamily :=
  { mf with metric := mf.metric.map (enrichMetric nm) }

/-- The outer loop of `EnrichMetricFamilies` over the family collection (in
the order the Go runtime iterates the map). -/
def enrichFamilies (nm : NamespaceMetrics) (fams : List MetricFamily) : List MetricFamily :=
  fams.map (enrichFamily nm)

/-- Text rendering of one label pair inside a sample line, as the expfmt
text encoder writes it. -/
def encodeLabelPair (l : LabelPair) : String :=
  l.name ++ "=\x22" ++ l.value ++ "\x22"

/-- Text rendering of one sample line, as the expfmt text encoder writes
it. -/
def encodeMetric (familyName : String) (m : Metric) : String :=
  familyName ++ "\x7b" ++ String.intercalate "," (m.label.map encodeLabelPair)
    ++ "\x7d " ++ m.value ++ "\n"

/-- Text rendering of one family block (`# HELP`, `# TYPE`, then every
sample), modelling `encoder.Encode(mf)` for the text format. -/
def encodeFamily (mf : MetricFamily) : String :=
  "# HELP " ++ mf.name ++ " " ++ mf.help ++ "\n# TYPE " ++ mf.name ++ " " ++ mf.mtype ++ "\n"
    ++ String.join (mf.metric.map (encodeMetric mf.name))

/-- The encoding loop of `EnrichMetricFamilies`: encode the families one
after another, in the order the Go runtime iterates the map. -/
def encodeFamilies (fams : List MetricFamily) : String :=
  String.join (fams.map encodeFamily)

/-- `EnrichMetricFamilies` from metrics.go as a heap transformer.  The
first component is the post-call state of the `metricFamilies` argument
(the loop assigns `metric.Label` through shared pointers, so the caller's
collection holds the enriched samples afterwards); the second is the
post-call state of the cache, which the function only reads; the third is
the returned `(string, error)` pair (the encoder writes into a
`strings.Builder`, which never fails, so the error branch is dead). -/
def EnrichMetricFamilies (metricFamilies : List MetricFamily) (nm : NamespaceMetrics) :
    List MetricFamily × NamespaceMetrics × Except String String :=
  let fams := enrichFamilies nm metricFamilies
  (fams, nm, Except.ok (encodeFamilies fams))

/-- An HTTP response as the handler produces it: status code, content type,
body. -/
structure HTTPResponse where
  status      : Nat
  contentType : String
  body        : String
deriving DecidableEq

/-- `FetchAndProcessMetrics` from metrics.go.  The network fetch and the
expfmt text parser are external effects, passed in as the fetch outcome
and the parse function; the error-wrapping and staging mirror the source. -/
def FetchAndProcessMetrics (fetched : Except String String)
    (parse : String → Except String (List MetricFamily))
    (nm : NamespaceMetrics) : Except String String :=
  match fetched with
  | .error e => .error ("fetch error: " ++ e)
  | .ok raw =>
    match parse raw with
    | .error e => .error ("failed to parse metrics: " ++ e)
    | .ok metricFamilies =>
      match (EnrichMetricFamilies metricFamilies nm).2.2 with
      | .error e => .error ("failed to enrich metrics: " ++ e)
      | .ok enriched => .ok enriched

/-- `Handler` from metrics.go: on pipeline failure respond with
`http.Error` (status 500, `text/plain; charset=utf-8`, the message plus a
newline); on success set the exposition content type and write the body
(Go's first `Write` sends status 200). -/
def Handler (fetched : Except String String)
    (parse : String → Except String (List MetricFamily))
    (nm : NamespaceMetrics) : HTTPResponse :=
  match FetchAndProcessMetrics fetched parse nm with
  | .error err =>
    { status := 500, contentType := "text/plain; charset=utf-8",
      body := "failed to fetch/process metrics: " ++ err ++ "\n" }
  | .ok data =>
    { status := 200, contentType := "text/plain; version=0.0.4", body := data }

/-- `corev1.LabelMetadataName`, the immutable name-identity label stripped
by the reconciler. -/
def LabelMetadataName : String :=
  "kubernetes.io/metadata.name"

/-- Outcome of `r.Get` inside `Reconcile`: the namespace was read (with its
labels), or the read failed with not-found, or with some other error. -/
inductive GetResult where
  | found (labels : List (String × String))
  | notFound
  | otherError (msg : String)
deriving DecidableEq

/-- The strip loop of `Reconcile`: delete the `LabelMetadataName` key from
the label map. -/
def stripMetadataName (labels : List (String × String)) : List (String × String) :=
  labels.filter (fun p => p.1 != LabelMetadataName)

/-- Go map store `nm.Namespaces[name] = labels` on the association-list
embedding: replace the first binding for the key, or append a new one. -/
def insertNamespace (entries : List (String × List (String × String)))
    (key : String) (labels : List (String × String)) :
    List (String × List (String × String)) :=
  match entries with
  | [] => [(key, labels)]
  | (k, v) :: rest =>
    if k == key then (key, labels) :: rest
    else (k, v) :: insertNamespace rest key labels

/-- `NamespaceLabelReconciler.Reconcile`: on not-found, `IgnoreNotFound`
turns the error into a successful no-op; on any other read error the error
is returned (for requeue) and the cache is untouched; on success, if the
namespace's label map is empty the reconcile returns early, otherwise the
metadata-name label is stripped and the cache entry for the namespace name
is replaced wholesale.  Returns the post-call cache and the returned
error. -/
def Reconcile (get : GetResult) (reqName : String) (nm : NamespaceMetrics) :
    NamespaceMetrics × Option String :=
  match get with
  | .notFound => (nm, none)
  | .otherError msg => (nm, some msg)
  | .found labels =>
    if labels.isEmpty then (nm, none)
    else
      ({ Namespaces := insertNamespace nm.Namespaces reqName (stripMetadataName labels) }, none)

/-- Membership in `hasLabel` terms: a label name is found exactly when it
occurs among the label names. -/
theorem hasLabel_iff (labels : List LabelPair) (k : String) :
    hasLabel labels k = true ↔ k ∈ labels.map LabelPair.name := by
  simp [hasLabel, List.any_eq_true, List.mem_map, beq_iff_eq]

/-- Scanning a concatenation for a label name scans both parts. -/
theorem hasLabel_append (xs ys : List LabelPair) (n : String) :
    hasLabel (xs ++ ys) n = (hasLabel xs n || hasLabel ys n) := by
  simp [hasLabel]

/-- The append loop only ever appends: its result is the original label
list followed by some added labels. -/
theorem appendExtraLabels_eq_append (extra : List (String × String)) :
    ∀ labels : List LabelPair, ∃ added, appendExtraLabels labels extra = labels ++ added := by
  induction extra with
  | nil =>
    intro labels
    exact ⟨[], by simp [appendExtraLabels]⟩
  | cons p rest ih =>
    intro labels
    obtain ⟨k, v⟩ := p
    cases h : hasLabel labels k with
    | true =>
      obtain ⟨added, ha⟩ := ih labels
      exact ⟨added, by simp [appendExtraLabels, h, ha]⟩
    | false =>
      obtain ⟨added, ha⟩ := ih (labels ++ [⟨k, v⟩])
      refine ⟨⟨k, v⟩ :: added, ?_⟩
      simp [appendExtraLabels, h, ha]

/-- Labels present before the append loop are still present afterwards. -/
theorem mem_appendExtraLabels_of_mem (extra : List (String × String))
    (labels : List LabelPair) (l : LabelPair) (hl : l ∈ labels) :
    l ∈ appendExtraLabels labels extra := by
  obtain ⟨added, ha⟩ := appendExtraLabels_eq_append extra labels
  rw [ha]
  exact List.mem_append_left added hl

/-- A label name found before the append loop is still found afterwards. -/
theorem hasLabel_appendExtraLabels_of (extra : List (String × String))
    (labels : List LabelPair) (n : String) (h : hasLabel labels n = true) :
    hasLabel (appendExtraLabels labels extra) n = true := by
  obtain ⟨added, ha⟩ := appendExtraLabels_eq_append extra labels
  rw [ha, hasLabel_append, h, Bool.true_or]

/-- Every label produced by the append loop is either an original label or
carries a name that was absent from the original list. -/
theorem mem_of_mem_appendExtraLabels (extra : List (String × String)) :
    ∀ (labels : List LabelPair) (l : LabelPair), l ∈ appendExtraLabels labels extra →
      l ∈ labels ∨ hasLabel labels l.name = false := by
  induction extra with
  | nil =>
    intro labels l hl
    exact Or.inl (by simpa [appendExtraLabels] using hl)
  | cons q rest ih =>
    intro labels l hl
    obtain ⟨k, v⟩ := q
    cases h : hasLabel labels k with
    | true =>
      rw [show appendExtraLabels labels ((k, v) :: rest) = appendExtraLabels labels rest from by
        simp [appendExtraLabels, h]] at hl
      exact ih labels l hl
    | false =>
      rw [show appendExtraLabels labels ((k, v) :: rest)
            = appendExtraLabels (labels ++ [⟨k, v⟩]) rest from by
        simp [appendExtraLabels, h]] at hl
      rcases ih _ l hl with hmem | hno
      · rcases List.mem_append.mp hmem with h1 | h2
        · exact Or.inl h1
        · right
          have hlkv : l = ⟨k, v⟩ := by simpa using h2
          rw [hlkv]
          exact h
      · right
        rw [hasLabel_append] at hno
        simpa using (Bool.or_eq_false_iff.mp hno).1

/-- The append loop preserves distinctness of label names. -/
theorem nodup_appendExtraLabels (extra : List (String × String)) :
    ∀ labels : List LabelPair, (labels.map LabelPair.name).Nodup →
      ((appendExtraLabels labels extra).map LabelPair.name).Nodup := by
  induction extra with
  | nil =>
    intro labels h
    simpa [appendExtraLabels] using h
  | cons q rest ih =>
    intro labels h
    obtain ⟨k, v⟩ := q
    cases hk : hasLabel labels k with
    | true =>
      rw [show appendExtraLabels labels ((k, v) :: rest) = appendExtraLabels labels rest from by
        simp [appendExtraLabels, hk]]
      exact ih labels h
    | false =>
      have hnotin : k ∉ labels.map LabelPair.name := by
        rw [← hasLabel_iff]
        simp [hk]
      have h2 : ((labels ++ [LabelPair.mk k v]).map LabelPair.name).Nodup := by
        rw [List.map_append, List.nodup_append]
        refine ⟨h, List.nodup_singleton _, ?_⟩
        intro a ha hb
        simp at hb
        subst hb
        exact hnotin ha
      rw [show appendExtraLabels labels ((k, v) :: rest)
            = appendExtraLabels (labels ++ [⟨k, v⟩]) rest from by
        simp [appendExtraLabels, hk]]
      exact ih (labels ++ [⟨k, v⟩]) h2

/-- After the append loop, every key of the appended map is present as a
label name. -/
theorem hasLabel_appendExtraLabels_self (extra : List (String × String)) :
    ∀ labels : List LabelPair, ∀ p ∈ extra,
      hasLabel (appendExtraLabels labels extra) p.1 = true := by
  induction extra with
  | nil =>
    intro labels p hp
    simp at hp
  | cons q rest ih =>
    intro labels p hp
    obtain ⟨k, v⟩ := q
    rcases List.mem_cons.mp hp with hq | hrest
    · subst hq
      cases h : hasLabel labels k with
      | true =>
        rw [show appendExtraLabels labels ((k, v) :: rest) = appendExtraLabels labels rest from by
          simp [appendExtraLabels, h]]
        exact hasLabel_appendExtraLabels_of rest labels k h
      | false =>
        rw [show appendExtraLabels labels ((k, v) :: rest)
              = appendExtraLabels (labels ++ [⟨k, v⟩]) rest from by
          simp [appendExtraLabels, h]]
        refine hasLabel_appendExtraLabels_of rest (labels ++ [⟨k, v⟩]) k ?_
        rw [hasLabel_append]
        simp [hasLabel]
    · cases h : hasLabel labels k with
      | true =>
        rw [show appendExtraLabels labels ((k, v) :: rest) = appendExtraLabels labels rest from by
          simp [appendExtraLabels, h]]
        exact ih labels p hrest
      | false =>
        rw [show appendExtraLabels labels ((k, v) :: rest)
              = appendExtraLabels (labels ++ [⟨k, v⟩]) rest from by
          simp [appendExtraLabels, h]]
        exact ih (labels ++ [⟨k, v⟩]) p hrest

/-- When every key of the map is already a label name, the append loop is
the identity. -/
theorem appendExtraLabels_eq_self (extra : List (String × String)) :
    ∀ labels : List LabelPair, (∀ p ∈ extra, hasLabel labels p.1 = true) →
      appendExtraLabels labels extra = labels := by
  induction extra with
  | nil =>
    intro labels _
    rfl
  | cons q rest ih =>
    intro labels h
    obtain ⟨k, v⟩ := q
    have hk : hasLabel labels k = true := h (k, v) (List.mem_cons_self _ _)
    rw [show appendExtraLabels labels ((k, v) :: rest) = appendExtraLabels labels rest from by
      simp [appendExtraLabels, hk]]
    exact ih labels (fun p hp => h p (List.mem_cons_of_mem _ hp))

/-- Scanning a concatenation finds whatever the left part finds. -/
theorem find?_append_of_some {α : Type} {p : α → Bool} {l₁ l₂ : List α} {a : α}
    (h : l₁.find? p = some a) : (l₁ ++ l₂).find? p = some a := by
  induction l₁ with
  | nil => simp [List.find?] at h
  | cons x xs ih =>
    cases hx : p x with
    | true =>
      rw [List.find?_cons_of_pos _ hx] at h
      rw [List.cons_append, List.find?_cons_of_pos _ hx]
      exact h
    | false =>
      rw [List.find?_cons_of_neg _ (by simp [hx])] at h
      rw [List.cons_append, List.find?_cons_of_neg _ (by simp [hx])]
      exact ih h

/-- The append loop never changes the result of the `namespace`-label scan
when that scan already found a label. -/
theorem findNamespaceValue_appendExtraLabels (labels : List LabelPair)
    (extra : List (String × String)) (h : findNamespaceValue labels ≠ "") :
    findNamespaceValue (appendExtraLabels labels extra) = findNamespaceValue labels := by
  cases hf : labels.find? (fun l => l.name == "namespace") with
  | none => exact absurd (by simp [findNamespaceValue, hf]) h
  | some l =>
    obtain ⟨added, ha⟩ := appendExtraLabels_eq_append extra labels
    rw [ha]
    have hfa : (labels ++ added).find? (fun l => l.name == "namespace") = some l :=
      find?_append_of_some hf
    simp [findNamespaceValue, hf, hfa]

/-- Enriching a sample twice against the same cache is the same as
enriching it once. -/
theorem enrichMetric_idem (nm : NamespaceMetrics) (m : Metric) :
    enrichMetric nm (enrichMetric nm m) = enrichMetric nm m := by
  by_cases hv : findNamespaceValue m.label = ""
  · simp [enrichMetric, hv]
  · cases hlk : lookupNamespace nm (findNamespaceValue m.label) with
    | none => simp [enrichMetric, hv, hlk]
    | some extra =>
      have hm : enrichMetric nm m = { m with label := appendExtraLabels m.label extra } := by
        simp [enrichMetric, hv, hlk]
      rw [hm]
      have hfv : findNamespaceValue (appendExtraLabels m.label extra)
          = findNamespaceValue m.label :=
        findNamespaceValue_appendExtraLabels m.label extra hv
      have hA : appendExtraLabels (appendExtraLabels m.label extra) extra
          = appendExtraLabels m.label extra :=
        appendExtraLabels_eq_self extra _ (hasLabel_appendExtraLabels_self extra m.label)
      simp [enrichMetric, hfv, hv, hlk, hA]

/-- A pair of the appended map whose key is not yet a label name ends up in
the label list, provided the map's keys are distinct (as a Go map's are). -/
theorem mem_appendExtraLabels_of_key (extra : List (String × String)) :
    ∀ (labels : List LabelPair) (k v : String), (extra.map Prod.fst).Nodup →
      (k, v) ∈ extra → hasLabel labels k = false →
      LabelPair.mk k v ∈ appendExtraLabels labels extra := by
  induction extra with
  | nil =>
    intro labels k v _ hmem _
    simp at hmem
  | cons q rest ih =>
    intro labels k v hnd hmem hno
    obtain ⟨k', v'⟩ := q
    rcases List.mem_cons.mp hmem with hq | hrest
    · have hk : k = k' := congrArg Prod.fst hq
      have hv : v = v' := congrArg Prod.snd hq
      subst hk
      subst hv
      rw [show appendExtraLabels labels ((k, v) :: rest)
            = appendExtraLabels (labels ++ [LabelPair.mk k v]) rest from by
        simp [appendExtraLabels, hno]]
      exact mem_appendExtraLabels_of_mem rest _ _ (List.mem_append_right labels (by simp))
    · have hne : k ≠ k' := by
        intro hkk
        have hk' : k' ∉ rest.map Prod.fst := (List.nodup_cons.mp hnd).1
        apply hk'
        rw [← hkk]
        exact List.mem_map.mpr ⟨(k, v), hrest, rfl⟩
      have hnd' : (rest.map Prod.fst).Nodup := (List.nodup_cons.mp hnd).2
      cases h' : hasLabel labels k' with
      | true =>
        rw [show appendExtraLabels labels ((k', v') :: rest) = appendExtraLabels labels rest from by
          simp [appendExtraLabels, h']]
        exact ih labels k v hnd' hrest hno
      | false =>
        rw [show appendExtraLabels labels ((k', v') :: rest)
              = appendExtraLabels (labels ++ [LabelPair.mk k' v']) rest from by
          simp [appendExtraLabels, h']]
        refine ih _ k v hnd' hrest ?_
        rw [hasLabel_append, hno]
        simp [hasLabel]
        exact fun hkk => absurd hkk.symm hne

/-- The enrichment of a sample is either the sample itself or the sample
with its cached namespace labels appended. -/
theorem enrichMetric_eq_or_append (nm : NamespaceMetrics) (m : Metric) :
    enrichMetric nm m = m ∨
      ∃ extra, lookupNamespace nm (findNamespaceValue m.label) = some extra ∧
        enrichMetric nm m = { m with label := appendExtraLabels m.label extra } := by
  by_cases hv : findNamespaceValue m.label = ""
  · exact Or.inl (by simp [enrichMetric, hv])
  · cases hlk : lookupNamespace nm (findNamespaceValue m.label) with
    | none => exact Or.inl (by simp [enrichMetric, hv, hlk])
    | some extra => exact Or.inr ⟨extra, rfl, by simp [enrichMetric, hv, hlk]⟩

/-- A sample on which every `namespace`-named label misses the cache passes
through enrichment unchanged. -/
theorem enrichMetric_unchanged (nm : NamespaceMetrics) (m : Metric)
    (h : ∀ l ∈ m.label, l.name = "namespace" → lookupNamespace nm l.value = none) :
    enrichMetric nm m = m := by
  cases hf : m.label.find? (fun l => l.name == "namespace") with
  | none => simp [enrichMetric, findNamespaceValue, hf]
  | some l =>
    have hmem : l ∈ m.label := List.mem_of_find?_eq_some hf
    have hname : l.name = "namespace" := by
      have hp := List.find?_some hf
      simpa using hp
    have hlk := h l hmem hname
    by_cases hlv : l.value = ""
    · simp [enrichMetric, findNamespaceValue, hf, hlv]
    · simp [enrichMetric, findNamespaceValue, hf, hlv, hlk]

/-- The empty cache enriches nothing. -/
theorem enrichMetric_empty_cache (m : Metric) : enrichMetric ⟨[]⟩ m = m :=
  enrichMetric_unchanged ⟨[]⟩ m (fun _ _ _ => rfl)

/-- The empty cache leaves a family untouched. -/
theorem enrichFamily_empty_cache (mf : MetricFamily) : enrichFamily ⟨[]⟩ mf = mf := by
  have hfun : enrichMetric ⟨[]⟩ = id := funext enrichMetric_empty_cache
  simp [enrichFamily, hfun]

/-- The empty cache leaves the whole collection untouched. -/
theorem enrichFamilies_empty_cache (fams : List MetricFamily) :
    enrichFamilies ⟨[]⟩ fams = fams := by
  have hfun : enrichFamily ⟨[]⟩ = id := funext enrichFamily_empty_cache
  simp [enrichFamilies, hfun]

/-- Enriching a family twice against the same cache is the same as
enriching it once. -/
theorem enrichFamily_idem (nm : NamespaceMetrics) (mf : MetricFamily) :
    enrichFamily nm (enrichFamily nm mf) = enrichFamily nm mf := by
  simp [enrichFamily, List.map_map, Function.comp, enrichMetric_idem]

/-- Enriching the collection twice against the same cache is the same as
enriching it once. -/
theorem enrichFamilies_idem (nm : NamespaceMetrics) (fams : List MetricFamily) :
    enrichFamilies nm (enrichFamilies nm fams) = enrichFamilies nm fams := by
  simp [enrichFamilies, List.map_map, Function.comp, enrichFamily_idem]

/-- Looking up the key just stored finds exactly the stored label set. -/
theorem find?_insertNamespace (entries : List (String × List (String × String)))
    (key : String) (labels : List (String × String)) :
    (insertNamespace entries key labels).find? (fun p => p.1 == key)
      = some (key, labels) := by
  induction entries with
  | nil => simp [insertNamespace, List.find?]
  | cons e rest ih =>
    obtain ⟨k, v⟩ := e
    cases hk : (k == key) with
    | true =>
      rw [show insertNamespace ((k, v) :: rest) key labels = (key, labels) :: rest from by
        simp [insertNamespace, hk]]
      exact List.find?_cons_of_pos _ (by simp)
    | false =>
      rw [show insertNamespace ((k, v) :: rest) key labels
            = (k, v) :: insertNamespace rest key labels from by
        simp [insertNamespace, hk]]
      rw [List.find?_cons_of_neg _ (by simp [hk])]
      exact ih

/-- C2: every label present on a sample before enrichment survives with its
original value (cache values never replace it), every label of the output
is either an original label or carries a name absent from the original
sample, and when the sample's label names are distinct they stay distinct
after enrichment. -/
theorem enrichMetric_preserves_labels (nm : NamespaceMetrics) (m : Metric) :
    (∀ l ∈ m.label, l ∈ (enrichMetric nm m).label) ∧
    (∀ l ∈ (enrichMetric nm m).label, l ∈ m.label ∨ hasLabel m.label l.name = false) ∧
    ((m.label.map LabelPair.name).Nodup → ((enrichMetric nm m).label.map LabelPair.name).Nodup) := by
  rcases enrichMetric_eq_or_append nm m with he | ⟨extra, _, he⟩
  · rw [he]
    exact ⟨fun _ hl => hl, fun l hl => Or.inl hl, fun h => h⟩
  · rw [he]
    refine ⟨?_, ?_, ?_⟩
    · intro l hl
      exact mem_appendExtraLabels_of_mem extra m.label l hl
    · intro l hl
      exact mem_of_mem_appendExtraLabels extra m.label l hl
    · exact nodup_appendExtraLabels extra m.label

/-- Witness for C2 at Scenario B of the spec: the pre-existing `team`
label survives enrichment unreplaced and label names stay distinct. -/
theorem enrichMetric_preserves_labels_witness :
    LabelPair.mk "team" "legacy" ∈
      (enrichMetric ⟨[("ns1", [("team", "frontend")])]⟩
        ⟨[⟨"namespace", "ns1"⟩, ⟨"team", "legacy"⟩], "1"⟩).label ∧
    ((enrichMetric ⟨[("ns1", [("team", "frontend")])]⟩
        ⟨[⟨"namespace", "ns1"⟩, ⟨"team", "legacy"⟩], "1"⟩).label.map LabelPair.name).Nodup :=
  ⟨(enrichMetric_preserves_labels ⟨[("ns1", [("team", "frontend")])]⟩
      ⟨[⟨"namespace", "ns1"⟩, ⟨"team", "legacy"⟩], "1"⟩).1 _ (by decide),
   (enrichMetric_preserves_labels ⟨[("ns1", [("team", "frontend")])]⟩
      ⟨[⟨"namespace", "ns1"⟩, ⟨"team", "legacy"⟩], "1"⟩).2.2 (by decide)⟩

/-- C3: a sample with no `namespace` label, or whose `namespace`-labelled
values all miss the cache, passes through enrichment unchanged; and with
the empty cache the whole call is the identity on the collection and
returns the encoded input with no error. -/
theorem enrichMetric_passthrough (nm : NamespaceMetrics) (m : Metric)
    (fams : List MetricFamily) :
    ((∀ l ∈ m.label, l.name = "namespace" → lookupNamespace nm l.value = none) →
      enrichMetric nm m = m) ∧
    (EnrichMetricFamilies fams ⟨[]⟩).1 = fams ∧
    (EnrichMetricFamilies fams ⟨[]⟩).2.2 = Except.ok (encodeFamilies fams) := by
  refine ⟨enrichMetric_unchanged nm m, ?_, ?_⟩
  · simp [EnrichMetricFamilies, enrichFamilies_empty_cache]
  · simp [EnrichMetricFamilies, enrichFamilies_empty_cache]

/-- Witness for C3: a sample whose namespace misses the cache is returned
unchanged. -/
theorem enrichMetric_passthrough_witness :
    enrichMetric ⟨[("other", [("a", "b")])]⟩ ⟨[⟨"namespace", "unknown-ns"⟩, ⟨"pod", "x"⟩], "1"⟩
      = ⟨[⟨"namespace", "unknown-ns"⟩, ⟨"pod", "x"⟩], "1"⟩ :=
  (enrichMetric_passthrough ⟨[("other", [("a", "b")])]⟩
    ⟨[⟨"namespace", "unknown-ns"⟩, ⟨"pod", "x"⟩], "1"⟩ []).1 (by decide)

/-- C4: applying `EnrichMetricFamilies` a second time — to the collection
as the first call left it, with the same cache snapshot — produces exactly
the outcome of the first call (same collection state, same encoded
output, same absence of error). -/
theorem enrichMetricFamilies_idem (fams : List MetricFamily) (nm : NamespaceMetrics) :
    EnrichMetricFamilies (EnrichMetricFamilies fams nm).1 nm = EnrichMetricFamilies fams nm := by
  simp [EnrichMetricFamilies, enrichFamilies_idem]

/-- C8: a reconcile whose namespace read fails with not-found returns no
error (so nothing is requeued) and leaves the cache exactly as it was. -/
theorem reconcile_notfound_noop (reqName : String) (nm : NamespaceMetrics) :
    Reconcile GetResult.notFound reqName nm = (nm, none) :=
  rfl

/-- C10: a sample whose first `namespace` label is present but carries the
empty string passes through enrichment unchanged against every cache, in
particular one keyed by the empty string — exactly like a sample with no
`namespace` label. -/
theorem enrichMetric_empty_namespace_passthrough (nm : NamespaceMetrics) (m : Metric)
    (_hpresent : hasLabel m.label "namespace" = true)
    (hempty : findNamespaceValue m.label = "") :
    enrichMetric nm m = m := by
  simp [enrichMetric, hempty]

/-- Witness for C10: against a cache holding an entry keyed by the empty
string, a sample with `namespace=""` is returned unchanged. -/
theorem enrichMetric_empty_namespace_passthrough_witness :
    enrichMetric ⟨[("", [("team", "x")])]⟩ ⟨[⟨"namespace", ""⟩], "1"⟩
      = ⟨[⟨"namespace", ""⟩], "1"⟩ :=
  enrichMetric_empty_namespace_passthrough ⟨[("", [("team", "x")])]⟩
    ⟨[⟨"namespace", ""⟩], "1"⟩ (by decide) (by decide)

/-- C1 (amended): for a sample whose first `namespace`-named label carries
a nonempty value that is a key of the cache snapshot, every (key, value)
pair of that namespace's cached label set (its keys distinct, as a map's
are) whose key is not already a label name on the sample appears on the
enriched sample with the cached value. -/
theorem enrichMetric_adds_cached_labels (nm : NamespaceMetrics) (m : Metric)
    (extra : List (String × String)) (k v : String)
    (h1 : findNamespaceValue m.label ≠ "")
    (h2 : lookupNamespace nm (findNamespaceValue m.label) = some extra)
    (h3 : (extra.map Prod.fst).Nodup)
    (h4 : (k, v) ∈ extra)
    (h5 : hasLabel m.label k = false) :
    LabelPair.mk k v ∈ (enrichMetric nm m).label := by
  rw [show enrichMetric nm m = { m with label := appendExtraLabels m.label extra } from by
    simp [enrichMetric, h1, h2]]
  exact mem_appendExtraLabels_of_key extra m.label k v h3 h4 h5

/-- Witness for C1 at Scenario A of the spec: the cached `team` label is
added to a qualifying sample. -/
theorem enrichMetric_adds_cached_labels_witness :
    LabelPair.mk "team" "frontend" ∈
      (enrichMetric ⟨[("frontend-service1", [("team", "frontend")])]⟩
        ⟨[⟨"namespace", "frontend-service1"⟩, ⟨"pod", "x"⟩], "1.0"⟩).label :=
  enrichMetric_adds_cached_labels ⟨[("frontend-service1", [("team", "frontend")])]⟩
    ⟨[⟨"namespace", "frontend-service1"⟩, ⟨"pod", "x"⟩], "1.0"⟩
    [("team", "frontend")] "team" "frontend"
    (by decide) (by decide) (by decide) (by decide) (by decide)

/-- C1 counterexample: this sample carries a label named `namespace` whose
value `"b"` is a key of the cache, the cached pair `("k","v")` has a key
not present on the sample, yet enrichment adds nothing — the scan stops at
the first `namespace` label, whose value is the empty string, and the
empty value disables enrichment even though `""` is itself a cache key. -/
theorem enrichMetric_misses_cached_label_cex :
    LabelPair.mk "namespace" "b" ∈
      (⟨[⟨"namespace", ""⟩, ⟨"namespace", "b"⟩], "1"⟩ : Metric).label ∧
    lookupNamespace ⟨[("", [("k", "v")]), ("b", [("k", "v")])]⟩ "b" = some [("k", "v")] ∧
    hasLabel (⟨[⟨"namespace", ""⟩, ⟨"namespace", "b"⟩], "1"⟩ : Metric).label "k" = false ∧
    LabelPair.mk "k" "v" ∉
      (enrichMetric ⟨[("", [("k", "v")]), ("b", [("k", "v")])]⟩
        ⟨[⟨"namespace", ""⟩, ⟨"namespace", "b"⟩], "1"⟩).label := by
  decide

/-- C5: encoding is order-dependent — the outer encode loop ranges over a
Go map, and two legitimate iteration orders of the same two-element family
map yield different output text, so two runs on equal input need not
produce identical bytes. -/
theorem encode_order_dependent :
    List.Perm
      [(⟨"a", "ha", "gauge", [⟨[], "1"⟩]⟩ : MetricFamily), ⟨"b", "hb", "gauge", [⟨[], "2"⟩]⟩]
      [(⟨"b", "hb", "gauge", [⟨[], "2"⟩]⟩ : MetricFamily), ⟨"a", "ha", "gauge", [⟨[], "1"⟩]⟩] ∧
    (EnrichMetricFamilies
        [⟨"a", "ha", "gauge", [⟨[], "1"⟩]⟩, ⟨"b", "hb", "gauge", [⟨[], "2"⟩]⟩] ⟨[]⟩).2.2
      ≠ (EnrichMetricFamilies
        [⟨"b", "hb", "gauge", [⟨[], "2"⟩]⟩, ⟨"a", "ha", "gauge", [⟨[], "1"⟩]⟩] ⟨[]⟩).2.2 := by
  refine ⟨by decide, fun hcontra => ?_⟩
  have hs := Except.ok.inj hcontra
  exact absurd hs (by decide)

/-- C6 (amended): `EnrichMetricFamilies` never mutates the cache — the
namespace-to-labels mapping is identical before and after the call — and
returns the encoded enriched model without error; but it enriches the
metric-family collection in place, so after the call the input collection
holds the enriched samples rather than its original contents. -/
theorem enrichMetricFamilies_frame (fams : List MetricFamily) (nm : NamespaceMetrics) :
    (EnrichMetricFamilies fams nm).2.1 = nm ∧
    (EnrichMetricFamilies fams nm).1 = enrichFamilies nm fams ∧
    (EnrichMetricFamilies fams nm).2.2 = Except.ok (encodeFamilies (enrichFamilies nm fams)) :=
  ⟨rfl, rfl, rfl⟩

/-- C6 counterexample: on a qualifying sample the call does not leave the
input collection unchanged — the caller's collection holds the appended
label afterwards. -/
theorem enrichMetricFamilies_mutates_input_cex :
    (EnrichMetricFamilies
        [⟨"f", "h", "gauge", [⟨[⟨"namespace", "ns1"⟩], "1"⟩]⟩]
        ⟨[("ns1", [("team", "x")])]⟩).1
      ≠ [⟨"f", "h", "gauge", [⟨[⟨"namespace", "ns1"⟩], "1"⟩]⟩] := by
  decide

/-- C7 (amended): a reconcile that reads the namespace successfully and
observes a nonempty label map returns no error and replaces the cache
entry for the namespace name wholesale with the stripped label set; when
the observed label map is empty the reconcile instead returns early and
the prior entry survives. -/
theorem reconcile_replaces_entry (labels : List (String × String)) (reqName : String)
    (nm : NamespaceMetrics) (h : labels ≠ []) :
    (Reconcile (GetResult.found labels) reqName nm).2 = none ∧
    lookupNamespace (Reconcile (GetResult.found labels) reqName nm).1 reqName
      = some (stripMetadataName labels) := by
  have hne : labels.isEmpty = false := by
    cases labels with
    | nil => exact absurd rfl h
    | cons a l => rfl
  refine ⟨by simp [Reconcile, hne], ?_⟩
  simp only [Reconcile, hne, Bool.false_eq_true, if_false]
  simp [lookupNamespace, find?_insertNamespace]

/-- Witness for C7: storing a namespace whose labels include the
metadata-name label records exactly the stripped label set, replacing the
prior entry. -/
theorem reconcile_replaces_entry_witness :
    (Reconcile (GetResult.found [("kubernetes.io/metadata.name", "ns1"), ("team", "x")])
        "ns1" ⟨[("ns1", [("old", "o")])]⟩).2 = none ∧
    lookupNamespace
      (Reconcile (GetResult.found [("kubernetes.io/metadata.name", "ns1"), ("team", "x")])
        "ns1" ⟨[("ns1", [("old", "o")])]⟩).1 "ns1" = some [("team", "x")] := by
  have hmain := reconcile_replaces_entry
    [("kubernetes.io/metadata.name", "ns1"), ("team", "x")] "ns1"
    ⟨[("ns1", [("old", "o")])]⟩ (by decide)
  exact ⟨hmain.1, by rw [hmain.2]; decide⟩

/-- C7 counterexample: a successful read observing an empty label map does
not replace the prior cache entry — the stale labels survive instead of
being replaced by the (stripped) empty set. -/
theorem reconcile_empty_labels_noop_cex :
    (Reconcile (GetResult.found []) "ns1" ⟨[("ns1", [("a", "b")])]⟩).1
        = ⟨[("ns1", [("a", "b")])]⟩ ∧
    lookupNamespace (Reconcile (GetResult.found []) "ns1" ⟨[("ns1", [("a", "b")])]⟩).1 "ns1"
        = some [("a", "b")] ∧
    some [("a", "b")] ≠ some (stripMetadataName []) := by
  decide

/-- C9: when the fetch/parse/enrich/encode pipeline succeeds the handler
responds 200 with content type `text/plain; version=0.0.4` and the
enriched body; when any stage fails it responds 500 with a plain-text
description of the failure and the body carries only that message, no part
of a metrics body. -/
theorem handler_response (fetched : Except String String)
    (parse : String → Except String (List MetricFamily)) (nm : NamespaceMetrics) :
    (∀ d, FetchAndProcessMetrics fetched parse nm = Except.ok d →
      Handler fetched parse nm
        = ⟨200, "text/plain; version=0.0.4", d⟩) ∧
    (∀ e, FetchAndProcessMetrics fetched parse nm = Except.error e →
      Handler fetched parse nm
        = ⟨500, "text/plain; charset=utf-8", "failed to fetch/process metrics: " ++ e ++ "\n"⟩) := by
  constructor
  · intro d hd
    simp [Handler, hd]
  · intro e he
    simp [Handler, he]

/-- Witness for C9: a successful run returns 200 with the exposition
content type, and a failed fetch returns 500 carrying only the error
text. -/
theorem handler_response_witness :
    Handler (Except.ok "") (fun _ => Except.ok []) ⟨[]⟩
      = ⟨200, "text/plain; version=0.0.4", ""⟩ ∧
    Handler (Except.error "boom") (fun _ => Except.ok []) ⟨[]⟩
      = ⟨500, "text/plain; charset=utf-8",
          "failed to fetch/process metrics: fetch error: boom\n"⟩ := by
  constructor
  · exact (handler_response (Except.ok "") (fun _ => Except.ok []) ⟨[]⟩).1 "" rfl
  · have h := (handler_response (Except.error "boom") (fun _ => Except.ok []) ⟨[]⟩).2
      "fetch error: boom" rfl
    rw [h]
    decide

end KMProxy
